import Mathlib

/-!
Shallow embedding of the Visual Product Matcher similarity core
(`backend/similarity.py`): the feature extraction pipeline
(`extract_visual_features_from_image`), the weighted cosine similarity
scorer (`calculate_enhanced_similarity`) and the ranker
(`find_similar_products`), together with proofs of the specification
claims.

Modelling conventions:
* Python floats are modelled as rationals; `math.sqrt` is an explicit
  function parameter `sqrtFn : ℚ → ℚ` threaded through the definitions
  (witnesses instantiate it with concrete functions).  The claim about
  exact real arithmetic uses a real-valued copy of the scorer built on
  `Real.sqrt`.
* The extractor is modelled from the pixel-grid stage onwards: the
  preprocessing (thumbnail resize, RGB conversion) is the Preprocessor
  component, external to the numeric contract being verified.
* Python list slicing with a possibly negative bound is modelled by
  `pyTake`; `int()` truncation toward zero by `pyInt`.
* The one reachable runtime exception inside the extractor body (an
  out-of-range index in the edge-concentration loop) is modelled by the
  Boolean check `edgeConcOk`; when it fails the surrounding
  `try/except` returns the constant fallback vector.
-/

set_option maxRecDepth 8192

/-- An RGB pixel: three channel values, as yielded by PIL `getdata()`. -/
abbrev RGB := Nat × Nat × Nat

/-- A decoded image: width, height and row-major pixel list; `hwf`
records that the pixel list covers the full width-by-height grid. -/
structure Image where
  width : Nat
  height : Nat
  pixels : List RGB
  hwf : pixels.length = width * height

/-- A trivial square-root stand-in used to instantiate witnesses. -/
def sqrt0 : ℚ → ℚ := fun _ => 0

/-- Python helper `mean(values)`: `sum(values) / len(values) if values else 0`. -/
def mean (values : List ℚ) : ℚ :=
  if values = [] then 0 else values.sum / (values.length : ℚ)

/-- Python helper `std_dev(values)`: population standard deviation,
`sqrt(sum((x - m)**2 for x in values) / len(values))`, or `0` on an
empty list. -/
def std_dev (sqrtFn : ℚ → ℚ) (values : List ℚ) : ℚ :=
  if values = [] then 0
  else sqrtFn ((values.map (fun x => (x - mean values) ^ 2)).sum / (values.length : ℚ))

/-- Python `int()` applied to a rational: truncation toward zero. -/
def pyInt (x : ℚ) : Int := if x < 0 then ⌈x⌉ else ⌊x⌋

/-- Python helper `simple_histogram(values, bins, range_min, range_max)`:
`bin_index = min(int((val - range_min) / bin_width), bins - 1)`, counted
only when `bin_index >= 0`. -/
def simple_histogram (values : List ℚ) (bins : Nat) (range_min range_max : ℚ) :
    List Nat :=
  let bin_width := (range_max - range_min) / (bins : ℚ)
  values.foldl
    (fun hist val =>
      let bin_index : Int := min (pyInt ((val - range_min) / bin_width)) ((bins : Int) - 1)
      if 0 ≤ bin_index then hist.set bin_index.toNat (hist.getD bin_index.toNat 0 + 1)
      else hist)
    (List.replicate bins 0)

/-- The channels of a pixel as a list, so that Python's `p[i]` becomes
`(chanList p).getD i 0`. -/
def chanList (p : RGB) : List ℚ := [(p.1 : ℚ), (p.2.1 : ℚ), (p.2.2 : ℚ)]

/-- All values of one channel across the image, Python
`[p[c] for p in rgb_pixels]`. -/
def chVals (img : Image) (c : Nat) : List ℚ :=
  img.pixels.map (fun p => (chanList p).getD c 0)

/-- Python `sum(p)` for a pixel triple. -/
def chanSum (p : RGB) : ℚ := (p.1 : ℚ) + (p.2.1 : ℚ) + (p.2.2 : ℚ)

/-- Row-major pixel access `rgb_pixels[i]`; every in-code access is in
range for a well-formed image. -/
def pixelAt (img : Image) (i : Nat) : RGB := img.pixels.getD i (0, 0, 0)

/-- Python `max` of a nonempty list (0 on the empty list, which the code
never reaches). -/
def maxList : List ℚ → ℚ
  | [] => 0
  | x :: xs => xs.foldl max x

/-- Python `min` of a nonempty list (0 on the empty list, which the code
never reaches). -/
def minList : List ℚ → ℚ
  | [] => 0
  | x :: xs => xs.foldl min x

/-- `rgb_means[c]`: per-channel arithmetic mean divided by 255. -/
def rgbMean (img : Image) (c : Nat) : ℚ := mean (chVals img c) / 255

/-- `rgb_stds[c]`: per-channel population standard deviation divided by 255. -/
def rgbStd (sqrtFn : ℚ → ℚ) (img : Image) (c : Nat) : ℚ :=
  std_dev sqrtFn (chVals img c) / 255

/-- Feature group 1, `rgb_means + rgb_stds` (6 features). -/
def rgbStatFeats (sqrtFn : ℚ → ℚ) (img : Image) : List ℚ :=
  (List.range 3).map (rgbMean img) ++ (List.range 3).map (rgbStd sqrtFn img)

/-- Feature group 2, per-channel 5-bin histograms normalized by the
pixel count (15 features). -/
def colorHistFeats (img : Image) : List ℚ :=
  (List.range 3).flatMap (fun c =>
    (simple_histogram (chVals img c) 5 0 255).map
      (fun h : Nat => (h : ℚ) / (img.pixels.length : ℚ)))

/-- `brightness_vals`: per-pixel average of the three channels. -/
def brightnessVals (img : Image) : List ℚ := img.pixels.map (fun p => chanSum p / 3)

/-- Feature group 3, brightness and contrast (2 features). -/
def brightContrastFeats (sqrtFn : ℚ → ℚ) (img : Image) : List ℚ :=
  [mean (brightnessVals img) / 255, std_dev sqrtFn (brightnessVals img) / 255]

/-- `saturation_vals`: per-pixel `(max - min) / max if max > 0 else 0`. -/
def saturationVals (img : Image) : List ℚ :=
  img.pixels.map (fun p =>
    let mx : ℚ := max (p.1 : ℚ) (max (p.2.1 : ℚ) (p.2.2 : ℚ))
    let mn : ℚ := min (p.1 : ℚ) (min (p.2.1 : ℚ) (p.2.2 : ℚ))
    if 0 < mx then (mx - mn) / mx else 0)

/-- `aspect_ratio = image.width / image.height if image.height > 0 else 1.0`. -/
def aspect_ratio (img : Image) : ℚ :=
  if 0 < img.height then (img.width : ℚ) / (img.height : ℚ) else 1

/-- Feature group 4, color dominance / temperature / saturation / aspect
ratio / complexity.  The code's comment announces 10 features but the
`extend` appends 9 values, so the aspect ratio sits at overall index 30. -/
def colorDominanceFeats (sqrtFn : ℚ → ℚ) (img : Image) : List ℚ :=
  let m0 := rgbMean img 0
  let m1 := rgbMean img 1
  let m2 := rgbMean img 2
  let red_dominant : ℚ := if max m1 m2 + 1/10 < m0 then 1 else 0
  let green_dominant : ℚ := if max m0 m2 + 1/10 < m1 then 1 else 0
  let blue_dominant : ℚ := if max m0 m1 + 1/10 < m2 then 1 else 0
  let warm := (m0 + m1 * (1/2)) / (3/2)
  let cool := (m2 + m1 * (3/10)) / (13/10)
  let color_complexity : ℚ :=
    min ((img.pixels.dedup.length : ℚ) / (img.pixels.length : ℚ)) 1
  [red_dominant, green_dominant, blue_dominant, warm, cool,
    mean (saturationVals img), std_dev sqrtFn (saturationVals img),
    aspect_ratio img, color_complexity]

/-- `sum(abs(center[i] - other[i]) for i in range(3))` on raw channel values. -/
def absDiffSum (p q : RGB) : Nat :=
  ((p.1 : Int) - (q.1 : Int)).natAbs + ((p.2.1 : Int) - (q.2.1 : Int)).natAbs +
    ((p.2.2 : Int) - (q.2.2 : Int)).natAbs

/-- `edge_responses`: gradient magnitudes for the interior pixels
(`for y in range(1, height-1): for x in range(1, width-1)`). -/
def edge_responses (sqrtFn : ℚ → ℚ) (img : Image) : List ℚ :=
  (List.range' 1 (img.height - 2)).flatMap (fun y =>
    (List.range' 1 (img.width - 2)).map (fun x =>
      let center := pixelAt img (y * img.width + x)
      let right := pixelAt img (y * img.width + (x + 1))
      let bottom := pixelAt img ((y + 1) * img.width + x)
      let grad_x := (absDiffSum center right : ℚ) / 3
      let grad_y := (absDiffSum center bottom : ℚ) / 3
      sqrtFn (grad_x ^ 2 + grad_y ^ 2)))

/-- Feature group 5a, edge statistics and edge histogram (8 features, or
the constant filler `[0.1] * 8` when there are no interior pixels). -/
def edgeFeats (sqrtFn : ℚ → ℚ) (img : Image) : List ℚ :=
  let er := edge_responses sqrtFn img
  if er ≠ [] then
    [mean er / 255, std_dev sqrtFn er / 255, maxList er / 255] ++
      (simple_histogram er 5 0 255).map (fun h : Nat => (h : ℚ) / (er.length : ℚ))
  else List.replicate 8 (1/10)

/-- Grayscale values of one 8-by-8 block,
`for by in range(y, min(y+8, height)): for bx in range(x, min(x+8, width))`. -/
def blockPixels (img : Image) (y x : Nat) : List ℚ :=
  (List.range' y (min (y + 8) img.height - y)).flatMap (fun b =>
    (List.range' x (min (x + 8) img.width - x)).map (fun a =>
      chanSum (pixelAt img (b * img.width + a)) / 3))

/-- `local_variances`: squared standard deviation of each nonempty block,
over `range(0, height - 8, 8)` and `range(0, width - 8, 8)`. -/
def local_variances (sqrtFn : ℚ → ℚ) (img : Image) : List ℚ :=
  (List.range' 0 ((img.height - 8 + 7) / 8) 8).flatMap (fun y =>
    (List.range' 0 ((img.width - 8 + 7) / 8) 8).flatMap (fun x =>
      if blockPixels img y x ≠ [] then [(std_dev sqrtFn (blockPixels img y x)) ^ 2]
      else []))

/-- Feature group 5b, texture variance and uniformity (2 features, or the
filler `[0.1, 0.1]`). -/
def textureFeats (sqrtFn : ℚ → ℚ) (img : Image) : List ℚ :=
  let lv := local_variances sqrtFn img
  if lv ≠ [] then [mean lv / (255 ^ 2), std_dev sqrtFn lv / (255 ^ 2)]
  else [1/10, 1/10]

/-- Index pairs of the directional loop,
`for y in range(height - 1): for x in range(width - 1)`. -/
def dirPairs (img : Image) : List (Nat × Nat) :=
  (List.range (img.height - 1)).flatMap (fun y =>
    (List.range (img.width - 1)).map (fun x => (y, x)))

/-- `horizontal_energy`: sum of per-pixel absolute differences with the
right neighbor. -/
def horizontal_energy (img : Image) : ℚ :=
  ((dirPairs img).map (fun yx =>
    (absDiffSum (pixelAt img (yx.1 * img.width + yx.2))
      (pixelAt img (yx.1 * img.width + (yx.2 + 1))) : ℚ))).sum

/-- `vertical_energy`: sum of per-pixel absolute differences with the
bottom neighbor. -/
def vertical_energy (img : Image) : ℚ :=
  ((dirPairs img).map (fun yx =>
    (absDiffSum (pixelAt img (yx.1 * img.width + yx.2))
      (pixelAt img ((yx.1 + 1) * img.width + yx.2)) : ℚ))).sum

/-- `diagonal_energy`: sum of per-pixel absolute differences with the
diagonal neighbor. -/
def diagonal_energy (img : Image) : ℚ :=
  ((dirPairs img).map (fun yx =>
    (absDiffSum (pixelAt img (yx.1 * img.width + yx.2))
      (pixelAt img ((yx.1 + 1) * img.width + (yx.2 + 1))) : ℚ))).sum

/-- `total_energy = horizontal_energy + vertical_energy + diagonal_energy`. -/
def total_energy (img : Image) : ℚ :=
  horizontal_energy img + vertical_energy img + diagonal_energy img

/-- Feature group 5c, directional energies normalized by their sum
(3 features, or the filler `[0.33] * 3`). -/
def dirFeats (img : Image) : List ℚ :=
  if 0 < total_energy img then
    [horizontal_energy img / total_energy img,
      vertical_energy img / total_energy img,
      diagonal_energy img / total_energy img]
  else [33/100, 33/100, 33/100]

/-- Index pairs of the edge-concentration loop,
`for y in range(1, height-1): for x in range(1, width-1)`. -/
def concPairs (img : Image) : List (Nat × Nat) :=
  (List.range' 1 (img.height - 2)).flatMap (fun y =>
    (List.range' 1 (img.width - 2)).map (fun x => (y, x)))

/-- The (faulty) flat index `y * (width-2) + x - y` used by the source to
read `edge_responses` in the edge-concentration loop. -/
def concIdx (img : Image) (y x : Nat) : Nat := y * (img.width - 2) + x - y

/-- Whether every `edge_responses` access of the edge-concentration loop
is in range; when it is not, Python raises `IndexError` and the
extractor's `except` clause returns the fallback vector. -/
def edgeConcOk (sqrtFn : ℚ → ℚ) (img : Image) : Bool :=
  (concPairs img).all (fun yx =>
    concIdx img yx.1 yx.2 < (edge_responses sqrtFn img).length)

/-- `edge_responses[y * (width-2) + x - y] > 30`, the per-position edge
test of the edge-concentration loop. -/
def edgeAbove30 (sqrtFn : ℚ → ℚ) (img : Image) (y x : Nat) : Bool :=
  30 < (edge_responses sqrtFn img).getD (concIdx img y x) 0

/-- Feature group 6, shape / silhouette features (7 features appended;
the final truncation to 50 cuts the last two off). -/
def shapeFeats (sqrtFn : ℚ → ℚ) (img : Image) : List ℚ :=
  let er := edge_responses sqrtFn img
  let edge_pixel_count : ℚ := if er ≠ [] then ((er.filter (fun e => 30 < e)).length : ℚ) else 0
  let edge_density : ℚ :=
    if img.pixels ≠ [] then edge_pixel_count / (img.pixels.length : ℚ) else 0
  let vertical_structure : ℚ :=
    if 0 < total_energy img then vertical_energy img / total_energy img else 33/100
  let horizontal_structure : ℚ :=
    if 0 < total_energy img then horizontal_energy img / total_energy img else 33/100
  let length_category : ℚ :=
    if 3/2 < aspect_ratio img then 9/10
    else if 1 < aspect_ratio img then 6/10
    else 3/10
  let tops : ℚ :=
    ((((concPairs img).filter (fun yx => yx.1 < img.height / 4)).filter
      (fun yx => edgeAbove30 sqrtFn img yx.1 yx.2)).length : ℚ)
  let bottoms : ℚ :=
    ((((concPairs img).filter (fun yx =>
        ¬ yx.1 < img.height / 4 ∧ 3 * img.height / 4 < yx.1)).filter
      (fun yx => edgeAbove30 sqrtFn img yx.1 yx.2)).length : ℚ)
  let middles : ℚ :=
    ((((concPairs img).filter (fun yx =>
        ¬ yx.1 < img.height / 4 ∧ ¬ 3 * img.height / 4 < yx.1)).filter
      (fun yx => edgeAbove30 sqrtFn img yx.1 yx.2)).length : ℚ)
  let total_edge_pixels : ℚ := max (tops + bottoms + middles) 1
  let top_edge_ratio := tops / total_edge_pixels
  let bottom_edge_ratio := bottoms / total_edge_pixels
  let color_ranges :=
    (List.range 3).map (fun c => (maxList (chVals img c) - minList (chVals img c)) / 255)
  [edge_density, length_category, vertical_structure, horizontal_structure,
    top_edge_ratio, bottom_edge_ratio, mean color_ranges]

/-- The features appended by the nonempty-pixel branch of the extractor,
in source order (52 values for a nonempty image, truncated to 50 later). -/
def rawFeatures (sqrtFn : ℚ → ℚ) (img : Image) : List ℚ :=
  rgbStatFeats sqrtFn img ++ colorHistFeats img ++ brightContrastFeats sqrtFn img ++
    colorDominanceFeats sqrtFn img ++ edgeFeats sqrtFn img ++ textureFeats sqrtFn img ++
    dirFeats img ++ shapeFeats sqrtFn img

/-- The trailing `while len(features) < 50: features.append(0.05)` and
`features = features[:50]` of the extractor. -/
def padTo50 (l : List ℚ) : List ℚ :=
  (l ++ List.replicate (50 - l.length) (1/20)).take 50

/-- `extract_visual_features_from_image`, from the pixel-grid stage: the
nonempty-pixel branch computes the feature groups (returning the
`except` fallback `[0.1] * 50` when the edge-concentration loop would
raise `IndexError`), the empty-pixel branch skips them, and the result
is padded with 0.05 and truncated to exactly 50 entries. -/
def extract_visual_features_from_image (sqrtFn : ℚ → ℚ) (img : Image) : List ℚ :=
  if img.pixels = [] then padTo50 []
  else if edgeConcOk sqrtFn img then padTo50 (rawFeatures sqrtFn img)
  else List.replicate 50 (1/10)

/-- `for i in range(a, b): weights[i] = v` on a weight list. -/
def setRange (l : List ℚ) (a b : Nat) (v : ℚ) : List ℚ :=
  (List.range' a (b - a)).foldl (fun acc i => acc.set i v) l

/-- The canonical weight table built by `calculate_enhanced_similarity`:
start from `[1.0] * 50`, overwrite the group ranges in source order, and
finally set `weights[31] = 8.0` (the position the source comments call
the aspect-ratio dimension). -/
def weights : List ℚ :=
  let w := List.replicate 50 1
  let w := setRange w 0 6 (5/100)
  let w := setRange w 6 21 (1/10)
  let w := setRange w 21 23 (2/10)
  let w := setRange w 23 33 (1/10)
  let w := setRange w 33 41 5
  let w := setRange w 41 43 4
  let w := setRange w 43 46 6
  let w := setRange w 46 50 (55/10)
  if 31 < w.length then w.set 31 8 else w

/-- `zip` of three lists combined with a ternary function (Python
`zip(w, a, b)` truncates to the shortest list). -/
def zipWith3 {α β γ δ : Type} (f : α → β → γ → δ) : List α → List β → List γ → List δ
  | a :: as, b :: bs, c :: cs => f a b c :: zipWith3 f as bs cs
  | _, _, _ => []

/-- `sum(w * a * b for w, a, b in zip(weights, xs, ys))`. -/
def wsum3 (w a b : List ℚ) : ℚ := (zipWith3 (fun x y z => x * y * z) w a b).sum

/-- `calculate_enhanced_similarity`: weighted cosine similarity with the
canonical weight table; returns 0 on a length mismatch or a zero
weighted magnitude. -/
def calculate_enhanced_similarity (sqrtFn : ℚ → ℚ) (q p : List ℚ) : ℚ :=
  if q.length ≠ p.length ∨ q.length ≠ 50 then 0
  else
    let weighted_dot_product := wsum3 weights q p
    let weighted_magnitude1 := sqrtFn (wsum3 weights q q)
    let weighted_magnitude2 := sqrtFn (wsum3 weights p p)
    if weighted_magnitude1 = 0 ∨ weighted_magnitude2 = 0 then 0
    else weighted_dot_product / (weighted_magnitude1 * weighted_magnitude2)

/-- Division that reports an attempted division by zero as `none`. -/
def checkedDiv (a b : ℚ) : Option ℚ := if b = 0 then none else some (a / b)

/-- The scorer with its single division replaced by `checkedDiv`: equal
to the scorer wherever no division by zero is attempted. -/
def calculate_enhanced_similarity_checked (sqrtFn : ℚ → ℚ) (q p : List ℚ) : Option ℚ :=
  if q.length ≠ p.length ∨ q.length ≠ 50 then some 0
  else
    let weighted_dot_product := wsum3 weights q p
    let weighted_magnitude1 := sqrtFn (wsum3 weights q q)
    let weighted_magnitude2 := sqrtFn (wsum3 weights p p)
    if weighted_magnitude1 = 0 ∨ weighted_magnitude2 = 0 then some 0
    else checkedDiv weighted_dot_product (weighted_magnitude1 * weighted_magnitude2)

/-- The embedding of the rationals into the reals, as a named function. -/
def qr (q : ℚ) : ℝ := (q : ℝ)

/-- The canonical weight table over the reals. -/
def weightsR : List ℝ := weights.map qr

/-- `wsum3` over the reals. -/
def wsum3R (w a b : List ℝ) : ℝ := (zipWith3 (fun x y z => x * y * z) w a b).sum

/-- The scorer under exact real arithmetic (square root interpreted as
`Real.sqrt`), the semantics stipulated by the self-similarity claim. -/
noncomputable def calculate_enhanced_similarity_real (q p : List ℝ) : ℝ :=
  if q.length ≠ p.length ∨ q.length ≠ 50 then 0
  else
    let weighted_dot_product := wsum3R weightsR q p
    let weighted_magnitude1 := Real.sqrt (wsum3R weightsR q q)
    let weighted_magnitude2 := Real.sqrt (wsum3R weightsR p p)
    if weighted_magnitude1 = 0 ∨ weighted_magnitude2 = 0 then 0
    else weighted_dot_product / (weighted_magnitude1 * weighted_magnitude2)

/-- A catalog entry as consumed by `find_similar_products`: the
`embedding` field may be absent or `None` (both modelled by `none`). -/
structure Product where
  product_id : Nat
  product_name : String
  category : String
  image_path : String
  embedding : Option (List ℚ)
deriving DecidableEq

/-- A ranked result record as built by `find_similar_products`. -/
structure ScoredResult where
  product_id : Nat
  product_name : String
  category : String
  image_path : String
  similarity_score : ℚ
deriving DecidableEq

/-- The product database; `products` models
`product_database.get('products', [])`. -/
structure ProductDatabase where
  products : List Product
deriving DecidableEq

/-- The scoring-and-filtering loop of `find_similar_products`: keep, in
catalog iteration order, every product that has a nonempty embedding and
scores at least `min_similarity`. -/
def candidates (sqrtFn : ℚ → ℚ) (query : List ℚ) (products : List Product)
    (min_similarity : ℚ) : List ScoredResult :=
  products.filterMap (fun p =>
    match p.embedding with
    | some e =>
      if e ≠ [] then
        let s := calculate_enhanced_similarity sqrtFn query e
        if min_similarity ≤ s then
          some ⟨p.product_id, p.product_name, p.category, p.image_path, s⟩
        else none
      else none
    | none => none)

/-- One step of the stable descending insertion: `x` is placed before the
first element whose score is at most `x`'s (earlier elements with an
equal score stay in front of nothing, later ones stay behind `x`). -/
def insertDesc (x : ScoredResult) : List ScoredResult → List ScoredResult
  | [] => [x]
  | y :: ys =>
    if y.similarity_score ≤ x.similarity_score then x :: y :: ys
    else y :: insertDesc x ys

/-- Stable descending sort by `similarity_score`, the semantics of
Python's `list.sort(key=..., reverse=True)`. -/
def sortDesc : List ScoredResult → List ScoredResult
  | [] => []
  | x :: xs => insertDesc x (sortDesc xs)

/-- Python `l[:k]`: for `k >= 0` the first `k` elements, for `k < 0` all
but the last `|k|` elements. -/
def pyTake {α : Type} (k : Int) (l : List α) : List α :=
  if 0 ≤ k then l.take k.toNat else l.take (l.length - (-k).toNat)

/-- `find_similar_products`: empty for a falsy query embedding, otherwise
score, filter, stable-sort descending, and slice with `[:max_results]`. -/
def find_similar_products (sqrtFn : ℚ → ℚ) (query_embedding : List ℚ)
    (product_database : ProductDatabase) (min_similarity : ℚ) (max_results : Int) :
    List ScoredResult :=
  if query_embedding = [] then []
  else
    pyTake max_results
      (sortDesc (candidates sqrtFn query_embedding product_database.products min_similarity))

/-- A zero-pixel image (degenerate geometry). -/
def img00 : Image := ⟨0, 0, [], rfl⟩

/-- A one-pixel black image. -/
def img11 : Image := ⟨1, 1, [(0, 0, 0)], rfl⟩

/-- A two-pixel wide, one-pixel tall image: its aspect ratio is 2. -/
def img21 : Image := ⟨2, 1, [(10, 20, 30), (40, 50, 60)], rfl⟩

/-- A catalog with a single embedded product. -/
def db1 : ProductDatabase := ⟨[⟨1, "", "", "", some [1]⟩]⟩

/-- A catalog with two embedded products. -/
def db2 : ProductDatabase := ⟨[⟨1, "", "", "", some [1]⟩, ⟨2, "", "", "", some [1]⟩]⟩

theorem padTo50_length (l : List ℚ) : (padTo50 l).length = 50 := by
  simp only [padTo50, List.length_take, List.length_append, List.length_replicate]
  omega

theorem padTo50_mem {x : ℚ} {l : List ℚ} (h : x ∈ padTo50 l) : x ∈ l ∨ x = 1/20 := by
  unfold padTo50 at h
  have h2 := List.take_subset _ _ h
  rcases List.mem_append.mp h2 with h3 | h3
  · exact Or.inl h3
  · exact Or.inr (List.eq_of_mem_replicate h3)

theorem insertDesc_mem {z x : ScoredResult} {l : List ScoredResult}
    (h : z ∈ insertDesc x l) : z = x ∨ z ∈ l := by
  induction l with
  | nil => simpa [insertDesc] using h
  | cons y ys ih =>
    unfold insertDesc at h
    split at h
    · rcases List.mem_cons.mp h with h1 | h1
      · exact Or.inl h1
      · exact Or.inr h1
    · rcases List.mem_cons.mp h with h1 | h1
      · exact Or.inr (by simp [h1])
      · rcases ih h1 with h2 | h2
        · exact Or.inl h2
        · exact Or.inr (List.mem_cons_of_mem _ h2)

theorem sortDesc_subset : ∀ l : List ScoredResult, sortDesc l ⊆ l := by
  intro l
  induction l with
  | nil => simp [sortDesc]
  | cons x xs ih =>
    intro z hz
    rcases insertDesc_mem hz with h | h
    · simp [h]
    · exact List.mem_cons_of_mem _ (ih h)

theorem insertDesc_pairwise {x : ScoredResult} {l : List ScoredResult}
    (h : l.Pairwise (fun a b => b.similarity_score ≤ a.similarity_score)) :
    (insertDesc x l).Pairwise (fun a b => b.similarity_score ≤ a.similarity_score) := by
  induction l with
  | nil => simp [insertDesc]
  | cons y ys ih =>
    rw [List.pairwise_cons] at h
    obtain ⟨hy, hys⟩ := h
    unfold insertDesc
    split
    · rename_i hc
      refine List.Pairwise.cons ?_ (List.Pairwise.cons hy hys)
      intro z hz
      rcases List.mem_cons.mp hz with rfl | hz
      · exact hc
      · exact le_trans (hy z hz) hc
    · rename_i hc
      push_neg at hc
      refine List.Pairwise.cons ?_ (ih hys)
      intro z hz
      rcases insertDesc_mem hz with rfl | hz
      · exact le_of_lt hc
      · exact hy z hz

theorem sortDesc_pairwise (l : List ScoredResult) :
    (sortDesc l).Pairwise (fun a b => b.similarity_score ≤ a.similarity_score) := by
  induction l with
  | nil => simp [sortDesc]
  | cons x xs ih => exact insertDesc_pairwise ih

theorem insertDesc_filter_eq (x : ScoredResult) (l : List ScoredResult) (s : ℚ) :
    (insertDesc x l).filter (fun r => decide (r.similarity_score = s)) =
      (if x.similarity_score = s then [x] else []) ++
        l.filter (fun r => decide (r.similarity_score = s)) := by
  induction l with
  | nil =>
    by_cases hx : x.similarity_score = s <;> simp [insertDesc, hx]
  | cons y ys ih =>
    unfold insertDesc
    split
    · rename_i hc
      by_cases hx : x.similarity_score = s <;> simp [List.filter_cons, hx]
    · rename_i hc
      push_neg at hc
      rw [List.filter_cons, List.filter_cons]
      by_cases hy : y.similarity_score = s
      · have hx : ¬ x.similarity_score = s := by
          intro hx; rw [hx, ← hy] at hc; exact lt_irrefl _ hc
        simp [hy, hx, ih]
      · by_cases hx : x.similarity_score = s <;>
          simp [hy, hx, ih]

theorem sortDesc_filter_eq (l : List ScoredResult) (s : ℚ) :
    (sortDesc l).filter (fun r => decide (r.similarity_score = s)) =
      l.filter (fun r => decide (r.similarity_score = s)) := by
  induction l with
  | nil => rfl
  | cons x xs ih =>
    show (insertDesc x (sortDesc xs)).filter _ = _
    rw [insertDesc_filter_eq, ih, List.filter_cons]
    by_cases hx : x.similarity_score = s <;> simp [hx]

theorem takePre {α : Type} (n : Nat) (l : List α) : l.take n <+: l :=
  ⟨l.drop n, List.take_append_drop n l⟩

theorem prePlus {α : Type} {l1 l2 : List α} (h : l1 <+: l2) : l1 ⊆ l2 := by
  obtain ⟨t, rfl⟩ := h
  exact List.subset_append_left _ _

theorem preSub {α : Type} {l1 l2 : List α} (h : l1 <+: l2) : List.Sublist l1 l2 := by
  obtain ⟨t, rfl⟩ := h
  exact List.sublist_append_left _ _

theorem filterPre {α : Type} (p : α → Bool) {l1 l2 : List α} (h : l1 <+: l2) :
    l1.filter p <+: l2.filter p := by
  obtain ⟨t, rfl⟩ := h
  exact ⟨t.filter p, by simp⟩

theorem pyTakePre {α : Type} (k : Int) (l : List α) : pyTake k l <+: l := by
  unfold pyTake
  split
  · exact takePre _ _
  · exact takePre _ _

theorem pyTake_length_le {α : Type} (k : Int) (l : List α) (hk : 0 ≤ k) :
    ((pyTake k l).length : Int) ≤ k := by
  unfold pyTake
  rw [if_pos hk, List.length_take]
  omega

theorem candidates_mem {sqrtFn : ℚ → ℚ} {q : List ℚ} {minSim : ℚ}
    {ps : List Product} {r : ScoredResult} (h : r ∈ candidates sqrtFn q ps minSim) :
    ∃ p ∈ ps, ∃ e, p.embedding = some e ∧ e ≠ [] ∧
      minSim ≤ calculate_enhanced_similarity sqrtFn q e ∧
      r = ⟨p.product_id, p.product_name, p.category, p.image_path,
            calculate_enhanced_similarity sqrtFn q e⟩ := by
  unfold candidates at h
  rw [List.mem_filterMap] at h
  obtain ⟨p, hp, hf⟩ := h
  rcases hemb : p.embedding with _ | e
  · rw [hemb] at hf
    simp at hf
  · rw [hemb] at hf
    dsimp only at hf
    by_cases he : e = []
    · simp [he] at hf
    · rw [if_pos he] at hf
      by_cases hs : minSim ≤ calculate_enhanced_similarity sqrtFn q e
      · rw [if_pos hs] at hf
        exact ⟨p, hp, e, hemb, he, hs, (Option.some.inj hf).symm⟩
      · rw [if_neg hs] at hf
        simp at hf

/-- C1 (as stated, counterexample): with `maxResults = -1` the ranker's
output length is 0, which is not at most `-1`, so the claim's length
bound fails for a negative `maxResults`. -/
theorem c1_negative_max_results_violates_length_bound :
    ¬ (((find_similar_products sqrt0 [1] ⟨[]⟩ 0 (-1)).length : Int) ≤ -1) := by
  decide

/-- C1 (amended to `maxResults ≥ 0`): the ranker returns only records
built from catalog products with a nonempty embedding, every returned
score is at least `minSimilarity`, the scores are non-increasing, and
the output length is at most `maxResults`. -/
theorem c1_ranker_contract (sqrtFn : ℚ → ℚ) (q : List ℚ) (db : ProductDatabase)
    (minSim : ℚ) (maxRes : Int) (hmax : 0 ≤ maxRes) :
    (∀ r ∈ find_similar_products sqrtFn q db minSim maxRes,
        ∃ p ∈ db.products, ∃ e, p.embedding = some e ∧ e ≠ [] ∧
          r = ⟨p.product_id, p.product_name, p.category, p.image_path,
                calculate_enhanced_similarity sqrtFn q e⟩) ∧
    (∀ r ∈ find_similar_products sqrtFn q db minSim maxRes,
        minSim ≤ r.similarity_score) ∧
    (find_similar_products sqrtFn q db minSim maxRes).Pairwise
      (fun a b => b.similarity_score ≤ a.similarity_score) ∧
    ((find_similar_products sqrtFn q db minSim maxRes).length : Int) ≤ maxRes := by
  have hmem : ∀ r ∈ find_similar_products sqrtFn q db minSim maxRes,
      r ∈ candidates sqrtFn q db.products minSim := by
    intro r hr
    unfold find_similar_products at hr
    split at hr
    · simp at hr
    · exact sortDesc_subset _ (prePlus (pyTakePre _ _) hr)
  refine ⟨?_, ?_, ?_, ?_⟩
  · intro r hr
    obtain ⟨p, hp, e, hemb, he, _, hr2⟩ := candidates_mem (hmem r hr)
    exact ⟨p, hp, e, hemb, he, hr2⟩
  · intro r hr
    obtain ⟨p, hp, e, hemb, he, hs, hr2⟩ := candidates_mem (hmem r hr)
    rw [hr2]
    exact hs
  · unfold find_similar_products
    split
    · simp
    · exact List.Pairwise.sublist (preSub (pyTakePre _ _)) (sortDesc_pairwise _)
  · unfold find_similar_products
    split
    · simpa using hmax
    · exact pyTake_length_le _ _ hmax

/-- C1 witness: the amended contract instantiated on a concrete catalog
of one embedded product with `maxResults = 1`. -/
theorem c1_ranker_contract_witness :
    ((find_similar_products sqrt0 [1] db1 0 1).length : Int) ≤ 1 :=
  (c1_ranker_contract sqrt0 [1] db1 0 1 (by decide)).2.2.2

/-- C5 (as stated, counterexample): with `maxResults = -1` and a catalog
of two embedded products the ranker returns one result, not an empty
sequence, because Python's `[:max_results]` slicing drops elements from
the end for a negative bound. -/
theorem c5_negative_max_results_not_empty :
    find_similar_products sqrt0 [1] db2 0 (-1) ≠ [] := by
  decide

/-- C5 (amended): `maxResults = 0` yields an empty sequence, and an
empty catalog yields an empty sequence for every `maxResults`. -/
theorem c5_zero_max_results_and_empty_catalog (sqrtFn : ℚ → ℚ) (q : List ℚ)
    (db : ProductDatabase) (minSim : ℚ) (maxRes : Int) :
    find_similar_products sqrtFn q db minSim 0 = [] ∧
    find_similar_products sqrtFn q ⟨[]⟩ minSim maxRes = [] := by
  constructor
  · unfold find_similar_products
    split
    · rfl
    · unfold pyTake
      simp
  · unfold find_similar_products
    split
    · rfl
    · show pyTake maxRes (sortDesc (candidates sqrtFn q [] minSim)) = []
      unfold candidates
      unfold pyTake
      split <;> simp [sortDesc]

/-- C6: when either weighted magnitude is exactly zero the scorer
returns exactly 0, and the checked-division variant confirms that no
division by zero is attempted. -/
theorem c6_zero_magnitude_returns_zero (sqrtFn : ℚ → ℚ) (a b : List ℚ)
    (ha : a.length = 50) (hb : b.length = 50)
    (hm : sqrtFn (wsum3 weights a a) = 0 ∨ sqrtFn (wsum3 weights b b) = 0) :
    calculate_enhanced_similarity sqrtFn a b = 0 ∧
      calculate_enhanced_similarity_checked sqrtFn a b = some 0 := by
  have hlen : ¬ (a.length ≠ b.length ∨ a.length ≠ 50) := by
    push_neg
    exact ⟨by rw [ha, hb], ha⟩
  constructor
  · unfold calculate_enhanced_similarity
    rw [if_neg hlen]
    show (if sqrtFn (wsum3 weights a a) = 0 ∨ sqrtFn (wsum3 weights b b) = 0
      then (0 : ℚ)
      else wsum3 weights a b / (sqrtFn (wsum3 weights a a) * sqrtFn (wsum3 weights b b))) = 0
    rw [if_pos hm]
  · unfold calculate_enhanced_similarity_checked
    rw [if_neg hlen]
    show (if sqrtFn (wsum3 weights a a) = 0 ∨ sqrtFn (wsum3 weights b b) = 0
      then some (0 : ℚ)
      else checkedDiv (wsum3 weights a b)
        (sqrtFn (wsum3 weights a a) * sqrtFn (wsum3 weights b b))) = some 0
    rw [if_pos hm]

/-- C6 witness: the all-zero 50-dimensional vector under the trivial
square root has weighted magnitude zero and scores 0. -/
theorem c6_zero_magnitude_witness :
    calculate_enhanced_similarity sqrt0 (List.replicate 50 0) (List.replicate 50 0) = 0 ∧
      calculate_enhanced_similarity_checked sqrt0 (List.replicate 50 0)
        (List.replicate 50 0) = some 0 :=
  c6_zero_magnitude_returns_zero sqrt0 _ _ (by decide) (by decide) (Or.inl rfl)

/-- C7: on vectors of mismatched length, or of length other than 50, the
scorer returns 0 (its guard short-circuits before any arithmetic). -/
theorem c7_length_mismatch_returns_zero (sqrtFn : ℚ → ℚ) (a b : List ℚ)
    (h : a.length ≠ b.length ∨ a.length ≠ 50) :
    calculate_enhanced_similarity sqrtFn a b = 0 := by
  unfold calculate_enhanced_similarity
  rw [if_pos h]

/-- C7 witness: an empty query against a singleton vector scores 0. -/
theorem c7_length_mismatch_witness : calculate_enhanced_similarity sqrt0 [] [1] = 0 :=
  c7_length_mismatch_returns_zero sqrt0 [] [1] (Or.inr (by decide))

/-- C8: the sort is stable — for every score value `s`, the equal-score
records of the ranker's output appear in catalog iteration order (the
output's `s`-scored records form a prefix of the candidate list's, and on
the full sorted list the two agree exactly). -/
theorem c8_stable_sort_ties (sqrtFn : ℚ → ℚ) (q : List ℚ) (db : ProductDatabase)
    (minSim s : ℚ) (maxRes : Int) :
    ((find_similar_products sqrtFn q db minSim maxRes).filter
        (fun r => decide (r.similarity_score = s))) <+:
      ((candidates sqrtFn q db.products minSim).filter
        (fun r => decide (r.similarity_score = s))) ∧
    (sortDesc (candidates sqrtFn q db.products minSim)).filter
        (fun r => decide (r.similarity_score = s)) =
      (candidates sqrtFn q db.products minSim).filter
        (fun r => decide (r.similarity_score = s)) := by
  refine ⟨?_, sortDesc_filter_eq _ _⟩
  unfold find_similar_products
  split
  · exact ⟨(candidates sqrtFn q db.products minSim).filter
      (fun r => decide (r.similarity_score = s)), by simp⟩
  · have h := filterPre (fun r => decide (r.similarity_score = s))
      (pyTakePre maxRes (sortDesc (candidates sqrtFn q db.products minSim)))
    rw [sortDesc_filter_eq _ s] at h
    exact h

/-- C2: the extractor's output always has exactly 50 entries — the
nonempty branch pads/truncates the raw features, the empty-pixel branch
pads the empty list, and the exception fallback is literally 50 long. -/
theorem c2_extract_length_fifty (sqrtFn : ℚ → ℚ) (img : Image) :
    (extract_visual_features_from_image sqrtFn img).length = 50 := by
  unfold extract_visual_features_from_image
  split
  · exact padTo50_length []
  · split
    · exact padTo50_length _
    · simp

/-- C3 (as stated, counterexample): on the zero-pixel image the
extractor does not return the exception fallback `[0.1] * 50`; it
returns the padding constant `[0.05] * 50`. -/
theorem c3_empty_image_not_point_one :
    extract_visual_features_from_image sqrt0 img00 ≠ List.replicate 50 (1/10) := by
  with_unfolding_all decide

/-- C3 (amended): the extractor is total, and on an empty pixel set it
skips the feature computation and returns 50 copies of the padding
constant 0.05 (the `[0.1] * 50` fallback is reserved for the `except`
path). -/
theorem c3_empty_image_returns_padding (sqrtFn : ℚ → ℚ) (img : Image)
    (h : img.pixels = []) :
    extract_visual_features_from_image sqrtFn img = List.replicate 50 (1/20) := by
  unfold extract_visual_features_from_image
  rw [if_pos h]
  with_unfolding_all decide

/-- C3 witness: the amended statement at the concrete zero-pixel image. -/
theorem c3_empty_image_witness :
    extract_visual_features_from_image sqrt0 img00 = List.replicate 50 (1/20) :=
  c3_empty_image_returns_padding sqrt0 img00 rfl

/-- C4 (code bug evidence): on a concrete 2-by-1 image (aspect ratio 2)
the extracted feature at index 30 is the aspect ratio, yet the weight
table assigns index 30 the low color weight 0.1 and puts the high
weight 8.0 at index 31 — the position the source comments call the
aspect-ratio dimension, but which actually holds color complexity. -/
theorem c4_aspect_ratio_weight_misaligned :
    aspect_ratio img21 = 2 ∧
    (extract_visual_features_from_image sqrt0 img21).get? 30 = some 2 ∧
    weights.get? 30 = some (1/10) ∧
    weights.get? 31 = some 8 := by
  with_unfolding_all decide

theorem mean_nonneg {l : List ℚ} (h : ∀ x ∈ l, 0 ≤ x) : 0 ≤ mean l := by
  unfold mean
  split
  · exact le_refl 0
  · exact div_nonneg (List.sum_nonneg h) (Nat.cast_nonneg _)

theorem std_dev_nonneg (sqrtFn : ℚ → ℚ) (hsq : ∀ x, 0 ≤ sqrtFn x) (l : List ℚ) :
    0 ≤ std_dev sqrtFn l := by
  unfold std_dev
  split
  · exact le_refl 0
  · exact hsq _

theorem foldl_max_ge (xs : List ℚ) : ∀ a : ℚ, a ≤ xs.foldl max a := by
  induction xs with
  | nil => intro a; exact le_refl a
  | cons x xs ih => intro a; exact le_trans (le_max_left a x) (ih (max a x))

theorem foldl_min_le (xs : List ℚ) : ∀ a : ℚ, xs.foldl min a ≤ a := by
  induction xs with
  | nil => intro a; exact le_refl a
  | cons x xs ih => intro a; exact le_trans (ih (min a x)) (min_le_left a x)

theorem maxList_nonneg {l : List ℚ} (h : ∀ x ∈ l, 0 ≤ x) : 0 ≤ maxList l := by
  cases l with
  | nil => exact le_refl 0
  | cons x xs => exact le_trans (h x (List.mem_cons_self x xs)) (foldl_max_ge xs x)

theorem minList_le_maxList {l : List ℚ} (h : l ≠ []) : minList l ≤ maxList l := by
  cases l with
  | nil => exact absurd rfl h
  | cons x xs => exact le_trans (foldl_min_le xs x) (foldl_max_ge xs x)

theorem chVals_nonneg (img : Image) (c : Nat) : ∀ v ∈ chVals img c, 0 ≤ v := by
  intro v hv
  rw [chVals, List.mem_map] at hv
  obtain ⟨p, _, rfl⟩ := hv
  rcases c with _ | _ | _ | c <;>
    simp [chanList]

theorem chanSum_nonneg (p : RGB) : 0 ≤ chanSum p := by
  unfold chanSum
  positivity

theorem brightnessVals_nonneg (img : Image) : ∀ v ∈ brightnessVals img, 0 ≤ v := by
  intro v hv
  rw [brightnessVals, List.mem_map] at hv
  obtain ⟨p, _, rfl⟩ := hv
  exact div_nonneg (chanSum_nonneg p) (by norm_num)

theorem rgbMean_nonneg (img : Image) (c : Nat) : 0 ≤ rgbMean img c :=
  div_nonneg (mean_nonneg (chVals_nonneg img c)) (by norm_num)

theorem rgbStatFeats_nonneg (sqrtFn : ℚ → ℚ) (hsq : ∀ x, 0 ≤ sqrtFn x) (img : Image) :
    ∀ v ∈ rgbStatFeats sqrtFn img, 0 ≤ v := by
  intro v hv
  rw [rgbStatFeats] at hv
  rcases List.mem_append.mp hv with h | h <;> rw [List.mem_map] at h <;>
    obtain ⟨c, _, rfl⟩ := h
  · exact rgbMean_nonneg img c
  · exact div_nonneg (std_dev_nonneg sqrtFn hsq _) (by norm_num)

theorem colorHistFeats_nonneg (img : Image) : ∀ v ∈ colorHistFeats img, 0 ≤ v := by
  intro v hv
  rw [colorHistFeats, List.mem_flatMap] at hv
  obtain ⟨c, _, hm⟩ := hv
  rw [List.mem_map] at hm
  obtain ⟨n, _, rfl⟩ := hm
  positivity

theorem brightContrastFeats_nonneg (sqrtFn : ℚ → ℚ) (hsq : ∀ x, 0 ≤ sqrtFn x)
    (img : Image) : ∀ v ∈ brightContrastFeats sqrtFn img, 0 ≤ v := by
  intro v hv
  rw [brightContrastFeats] at hv
  rcases List.mem_cons.mp hv with rfl | hv
  · exact div_nonneg (mean_nonneg (brightnessVals_nonneg img)) (by norm_num)
  · rcases List.mem_singleton.mp hv with rfl
    exact div_nonneg (std_dev_nonneg sqrtFn hsq _) (by norm_num)

theorem saturationVals_nonneg (img : Image) : ∀ v ∈ saturationVals img, 0 ≤ v := by
  intro v hv
  rw [saturationVals, List.mem_map] at hv
  obtain ⟨p, _, rfl⟩ := hv
  dsimp only
  split
  · rename_i hmx
    refine div_nonneg (sub_nonneg.mpr ?_) (le_of_lt hmx)
    exact le_trans (min_le_left _ _) (le_max_left _ _)
  · exact le_refl 0

theorem aspect_ratio_nonneg (img : Image) : 0 ≤ aspect_ratio img := by
  unfold aspect_ratio
  split
  · exact div_nonneg (Nat.cast_nonneg _) (Nat.cast_nonneg _)
  · norm_num

theorem colorDominanceFeats_nonneg (sqrtFn : ℚ → ℚ) (hsq : ∀ x, 0 ≤ sqrtFn x)
    (img : Image) : ∀ v ∈ colorDominanceFeats sqrtFn img, 0 ≤ v := by
  intro v hv
  simp only [colorDominanceFeats, List.mem_cons, List.not_mem_nil, or_false] at hv
  have h0 := rgbMean_nonneg img 0
  have h1 := rgbMean_nonneg img 1
  have h2 := rgbMean_nonneg img 2
  rcases hv with rfl | rfl | rfl | rfl | rfl | rfl | rfl | rfl | rfl
  · split <;> norm_num
  · split <;> norm_num
  · split <;> norm_num
  · exact div_nonneg (add_nonneg h0 (mul_nonneg h1 (by norm_num))) (by norm_num)
  · exact div_nonneg (add_nonneg h2 (mul_nonneg h1 (by norm_num))) (by norm_num)
  · exact mean_nonneg (saturationVals_nonneg img)
  · exact std_dev_nonneg sqrtFn hsq _
  · exact aspect_ratio_nonneg img
  · exact le_min (div_nonneg (Nat.cast_nonneg _) (Nat.cast_nonneg _)) zero_le_one

theorem edge_responses_nonneg (sqrtFn : ℚ → ℚ) (hsq : ∀ x, 0 ≤ sqrtFn x)
    (img : Image) : ∀ v ∈ edge_responses sqrtFn img, 0 ≤ v := by
  intro v hv
  rw [edge_responses, List.mem_flatMap] at hv
  obtain ⟨y, _, hm⟩ := hv
  rw [List.mem_map] at hm
  obtain ⟨x, _, rfl⟩ := hm
  exact hsq _

theorem edgeFeats_nonneg (sqrtFn : ℚ → ℚ) (hsq : ∀ x, 0 ≤ sqrtFn x) (img : Image) :
    ∀ v ∈ edgeFeats sqrtFn img, 0 ≤ v := by
  intro v hv
  simp only [edgeFeats] at hv
  split at hv
  · rcases List.mem_append.mp hv with h | h
    · rcases List.mem_cons.mp h with rfl | h
      · exact div_nonneg (mean_nonneg (edge_responses_nonneg sqrtFn hsq img)) (by norm_num)
      · rcases List.mem_cons.mp h with rfl | h
        · exact div_nonneg (std_dev_nonneg sqrtFn hsq _) (by norm_num)
        · rcases List.mem_singleton.mp h with rfl
          exact div_nonneg (maxList_nonneg (edge_responses_nonneg sqrtFn hsq img))
            (by norm_num)
    · rw [List.mem_map] at h
      obtain ⟨n, _, rfl⟩ := h
      positivity
  · rw [List.eq_of_mem_replicate hv]
    norm_num

theorem local_variances_nonneg (sqrtFn : ℚ → ℚ) (img : Image) :
    ∀ v ∈ local_variances sqrtFn img, 0 ≤ v := by
  intro v hv
  rw [local_variances, List.mem_flatMap] at hv
  obtain ⟨y, _, hm⟩ := hv
  rw [List.mem_flatMap] at hm
  obtain ⟨x, _, hm2⟩ := hm
  split at hm2
  · rcases List.mem_singleton.mp hm2 with rfl
    exact sq_nonneg _
  · exact absurd hm2 (List.not_mem_nil v)

theorem textureFeats_nonneg (sqrtFn : ℚ → ℚ) (hsq : ∀ x, 0 ≤ sqrtFn x) (img : Image) :
    ∀ v ∈ textureFeats sqrtFn img, 0 ≤ v := by
  intro v hv
  simp only [textureFeats] at hv
  split at hv
  · rcases List.mem_cons.mp hv with rfl | hv
    · exact div_nonneg (mean_nonneg (local_variances_nonneg sqrtFn img)) (by norm_num)
    · rcases List.mem_singleton.mp hv with rfl
      exact div_nonneg (std_dev_nonneg sqrtFn hsq _) (by norm_num)
  · rcases List.mem_cons.mp hv with rfl | hv
    · norm_num
    · rcases List.mem_singleton.mp hv with rfl
      norm_num

theorem horizontal_energy_nonneg (img : Image) : 0 ≤ horizontal_energy img := by
  refine List.sum_nonneg ?_
  intro x hx
  rw [List.mem_map] at hx
  obtain ⟨yx, _, rfl⟩ := hx
  positivity

theorem vertical_energy_nonneg (img : Image) : 0 ≤ vertical_energy img := by
  refine List.sum_nonneg ?_
  intro x hx
  rw [List.mem_map] at hx
  obtain ⟨yx, _, rfl⟩ := hx
  positivity

theorem diagonal_energy_nonneg (img : Image) : 0 ≤ diagonal_energy img := by
  refine List.sum_nonneg ?_
  intro x hx
  rw [List.mem_map] at hx
  obtain ⟨yx, _, rfl⟩ := hx
  positivity

theorem dirFeats_nonneg (img : Image) : ∀ v ∈ dirFeats img, 0 ≤ v := by
  intro v hv
  unfold dirFeats at hv
  split at hv
  · rename_i ht
    rcases List.mem_cons.mp hv with rfl | hv
    · exact div_nonneg (horizontal_energy_nonneg img) (le_of_lt ht)
    · rcases List.mem_cons.mp hv with rfl | hv
      · exact div_nonneg (vertical_energy_nonneg img) (le_of_lt ht)
      · rcases List.mem_singleton.mp hv with rfl
        exact div_nonneg (diagonal_energy_nonneg img) (le_of_lt ht)
  · rcases List.mem_cons.mp hv with rfl | hv
    · norm_num
    · rcases List.mem_cons.mp hv with rfl | hv
      · norm_num
      · rcases List.mem_singleton.mp hv with rfl
        norm_num

theorem shapeFeats_nonneg (sqrtFn : ℚ → ℚ) (_hsq : ∀ x, 0 ≤ sqrtFn x) (img : Image)
    (hpx : img.pixels ≠ []) : ∀ v ∈ shapeFeats sqrtFn img, 0 ≤ v := by
  intro v hv
  have hmax1 : ∀ x : ℚ, 0 ≤ max x 1 := fun x => le_trans zero_le_one (le_max_right x 1)
  simp only [shapeFeats, List.mem_cons, List.not_mem_nil, or_false] at hv
  rcases hv with rfl | rfl | rfl | rfl | rfl | rfl | rfl
  · split_ifs <;> positivity
  · split
    · norm_num
    · split
      · norm_num
      · norm_num
  · split
    · rename_i ht
      exact div_nonneg (vertical_energy_nonneg img) (le_of_lt ht)
    · norm_num
  · split
    · rename_i ht
      exact div_nonneg (horizontal_energy_nonneg img) (le_of_lt ht)
    · norm_num
  · exact div_nonneg (Nat.cast_nonneg _) (hmax1 _)
  · exact div_nonneg (Nat.cast_nonneg _) (hmax1 _)
  · refine mean_nonneg ?_
    intro x hx
    rw [List.mem_map] at hx
    obtain ⟨c, _, rfl⟩ := hx
    refine div_nonneg (sub_nonneg.mpr (minList_le_maxList ?_)) (by norm_num)
    intro hc
    apply hpx
    unfold chVals at hc
    exact List.map_eq_nil_iff.mp hc

theorem rawFeatures_nonneg (sqrtFn : ℚ → ℚ) (hsq : ∀ x, 0 ≤ sqrtFn x) (img : Image)
    (hpx : img.pixels ≠ []) : ∀ v ∈ rawFeatures sqrtFn img, 0 ≤ v := by
  intro v hv
  rw [rawFeatures] at hv
  simp only [List.append_assoc, List.mem_append] at hv
  rcases hv with h | h | h | h | h | h | h | h
  · exact rgbStatFeats_nonneg sqrtFn hsq img v h
  · exact colorHistFeats_nonneg img v h
  · exact brightContrastFeats_nonneg sqrtFn hsq img v h
  · exact colorDominanceFeats_nonneg sqrtFn hsq img v h
  · exact edgeFeats_nonneg sqrtFn hsq img v h
  · exact textureFeats_nonneg sqrtFn hsq img v h
  · exact dirFeats_nonneg img v h
  · exact shapeFeats_nonneg sqrtFn hsq img hpx v h

theorem extract_nonneg (sqrtFn : ℚ → ℚ) (hsq : ∀ x, 0 ≤ sqrtFn x) (img : Image) :
    ∀ v ∈ extract_visual_features_from_image sqrtFn img, 0 ≤ v := by
  intro v hv
  unfold extract_visual_features_from_image at hv
  split at hv
  · rcases padTo50_mem hv with h | rfl
    · exact absurd h (List.not_mem_nil v)
    · norm_num
  · split at hv
    · rename_i hpx _
      rcases padTo50_mem hv with h | rfl
      · exact rawFeatures_nonneg sqrtFn hsq img hpx v h
      · norm_num
    · rw [List.eq_of_mem_replicate hv]
      norm_num

theorem wsum3_cons (x y z : ℚ) (xs ys zs : List ℚ) :
    wsum3 (x :: xs) (y :: ys) (z :: zs) = x * y * z + wsum3 xs ys zs := by
  simp [wsum3, zipWith3]

theorem wsum3_nonneg {w a b : List ℚ} (hw : ∀ x ∈ w, 0 ≤ x) (ha : ∀ x ∈ a, 0 ≤ x)
    (hb : ∀ x ∈ b, 0 ≤ x) : 0 ≤ wsum3 w a b := by
  induction w generalizing a b with
  | nil => simp [wsum3, zipWith3]
  | cons x xs ih =>
    cases a with
    | nil => simp [wsum3, zipWith3]
    | cons y ys =>
      cases b with
      | nil => simp [wsum3, zipWith3]
      | cons z zs =>
        rw [wsum3_cons]
        have hw1 := List.forall_mem_cons.mp hw
        have ha1 := List.forall_mem_cons.mp ha
        have hb1 := List.forall_mem_cons.mp hb
        exact add_nonneg (mul_nonneg (mul_nonneg hw1.1 ha1.1) hb1.1)
          (ih hw1.2 ha1.2 hb1.2)

theorem weights_nonneg : ∀ x ∈ weights, 0 ≤ x := by
  with_unfolding_all decide

theorem score_nonneg (sqrtFn : ℚ → ℚ) (hsq : ∀ x, 0 ≤ sqrtFn x) {a b : List ℚ}
    (ha : ∀ x ∈ a, 0 ≤ x) (hb : ∀ x ∈ b, 0 ≤ x) :
    0 ≤ calculate_enhanced_similarity sqrtFn a b := by
  unfold calculate_enhanced_similarity
  split
  · exact le_refl 0
  · show (0 : ℚ) ≤
      if sqrtFn (wsum3 weights a a) = 0 ∨ sqrtFn (wsum3 weights b b) = 0 then 0
      else wsum3 weights a b / (sqrtFn (wsum3 weights a a) * sqrtFn (wsum3 weights b b))
    split
    · exact le_refl 0
    · rename_i hm
      push_neg at hm
      have hm1 : 0 < sqrtFn (wsum3 weights a a) :=
        lt_of_le_of_ne (hsq _) (Ne.symm hm.1)
      have hm2 : 0 < sqrtFn (wsum3 weights b b) :=
        lt_of_le_of_ne (hsq _) (Ne.symm hm.2)
      exact div_nonneg (wsum3_nonneg weights_nonneg ha hb)
        (le_of_lt (mul_pos hm1 hm2))

/-- C10: under any square root that returns nonnegative values (as the
real one does), every component of every extracted feature vector is
nonnegative, and consequently the weighted cosine similarity of two
extracted vectors is never negative. -/
theorem c10_extracted_nonneg_and_score_nonneg (sqrtFn : ℚ → ℚ)
    (hsq : ∀ x : ℚ, 0 ≤ sqrtFn x) (img1 img2 : Image) :
    (∀ v ∈ extract_visual_features_from_image sqrtFn img1, 0 ≤ v) ∧
    0 ≤ calculate_enhanced_similarity sqrtFn
        (extract_visual_features_from_image sqrtFn img1)
        (extract_visual_features_from_image sqrtFn img2) :=
  ⟨extract_nonneg sqrtFn hsq img1,
    score_nonneg sqrtFn hsq (extract_nonneg sqrtFn hsq img1)
      (extract_nonneg sqrtFn hsq img2)⟩

/-- C10 witness: instantiated with the trivial square root and the
one-pixel black image. -/
theorem c10_witness :
    0 ≤ calculate_enhanced_similarity sqrt0
        (extract_visual_features_from_image sqrt0 img11)
        (extract_visual_features_from_image sqrt0 img11) :=
  (c10_extracted_nonneg_and_score_nonneg sqrt0 (fun _ => le_refl 0) img11 img11).2

theorem wsum3R_cons (x y z : ℝ) (xs ys zs : List ℝ) :
    wsum3R (x :: xs) (y :: ys) (z :: zs) = x * y * z + wsum3R xs ys zs := by
  simp [wsum3R, zipWith3]

theorem wsum3R_self_nonneg {w v : List ℝ} (hw : ∀ x ∈ w, 0 ≤ x) :
    0 ≤ wsum3R w v v := by
  induction w generalizing v with
  | nil => simp [wsum3R, zipWith3]
  | cons x xs ih =>
    cases v with
    | nil => simp [wsum3R, zipWith3]
    | cons y ys =>
      rw [wsum3R_cons]
      have hw1 := List.forall_mem_cons.mp hw
      refine add_nonneg ?_ (ih hw1.2)
      rw [mul_assoc]
      exact mul_nonneg hw1.1 (mul_self_nonneg y)

theorem weightsR_nonneg : ∀ x ∈ weightsR, 0 ≤ x := by
  intro x hx
  rw [weightsR, List.mem_map] at hx
  obtain ⟨q, hq, rfl⟩ := hx
  have hq2 := weights_nonneg q hq
  unfold qr
  exact_mod_cast hq2

theorem wsum3_cast (w a b : List ℚ) :
    wsum3R (w.map qr) (a.map qr) (b.map qr) = qr (wsum3 w a b) := by
  induction w generalizing a b with
  | nil => simp [wsum3R, wsum3, zipWith3, qr]
  | cons x xs ih =>
    cases a with
    | nil =>
      show (0 : ℝ) = qr (wsum3 (x :: xs) [] b)
      have h2 : wsum3 (x :: xs) [] b = 0 := rfl
      rw [h2]
      simp [qr]
    | cons y ys =>
      cases b with
      | nil =>
        simp only [List.map_cons, List.map_nil]
        rw [show ∀ u : List ℝ, ∀ c : ℝ, ∀ cs : List ℝ, wsum3R (c :: cs) u [] = 0 from
          fun u c cs => by cases u <;> simp [wsum3R, zipWith3]]
        rw [show ∀ u : List ℚ, ∀ c : ℚ, ∀ cs : List ℚ, wsum3 (c :: cs) u [] = 0 from
          fun u c cs => by cases u <;> simp [wsum3, zipWith3]]
        simp [qr]
      | cons z zs =>
        simp only [List.map_cons]
        rw [wsum3R_cons, wsum3_cons, ih]
        unfold qr
        push_cast
        ring

/-- C9: under exact real arithmetic, a 50-dimensional vector with
nonzero weighted magnitude has self-similarity exactly 1. -/
theorem c9_self_similarity_one (v : List ℝ) (hlen : v.length = 50)
    (hmag : Real.sqrt (wsum3R weightsR v v) ≠ 0) :
    calculate_enhanced_similarity_real v v = 1 := by
  have hS0 : 0 ≤ wsum3R weightsR v v := wsum3R_self_nonneg weightsR_nonneg
  have hSne : wsum3R weightsR v v ≠ 0 := fun h => hmag (by rw [h, Real.sqrt_zero])
  unfold calculate_enhanced_similarity_real
  rw [if_neg (by push_neg; exact ⟨rfl, hlen⟩)]
  show (if Real.sqrt (wsum3R weightsR v v) = 0 ∨ Real.sqrt (wsum3R weightsR v v) = 0
    then (0 : ℝ)
    else wsum3R weightsR v v /
      (Real.sqrt (wsum3R weightsR v v) * Real.sqrt (wsum3R weightsR v v))) = 1
  rw [if_neg (by push_neg; exact ⟨hmag, hmag⟩)]
  rw [Real.mul_self_sqrt hS0]
  exact div_self hSne

/-- C9 witness: the all-ones 50-dimensional vector, whose weighted
squared norm is the weight sum 99.1, has self-similarity 1. -/
theorem c9_self_similarity_witness :
    calculate_enhanced_similarity_real (List.replicate 50 1) (List.replicate 50 1) = 1 := by
  apply c9_self_similarity_one
  · simp
  · have hv : (List.replicate 50 (1 : ℝ)) =
        (List.replicate 50 (1 : ℚ)).map qr := by simp [qr]
    have hw : weightsR = weights.map qr := rfl
    rw [hv, hw, wsum3_cast]
    have hq : wsum3 weights (List.replicate 50 1) (List.replicate 50 1) = 991/10 := by
      with_unfolding_all decide
    rw [hq, Real.sqrt_ne_zero']
    unfold qr
    norm_num
